import Mathlib

/-!
# Verification of `scripts/sync_workflows.py`

A shallow embedding of the workflow-sync utility: the structured patch engine
(`set_nested_value`, `apply_modifications`), the remote fetcher
(`download_workflow`), the keep/modify passes, and the drift check
(`check_extra_workflows`), together with proofs of the specified properties.

Conventions of the embedding:
* Python `dict` values (ruamel `CommentedMap`) are `YValue.map` over an
  association list, preserving insertion order; assignment to an existing key
  keeps the entry in place, assignment to a fresh key appends.
* `PlainScalarString` is the distinguished constructor `YValue.plainStr`;
  ordinary Python `str` values are `YValue.str`.
* A raised-and-uncaught Python exception (the `TypeError` from indexing or
  item-assigning a non-mapping) is `Option.none` in the functions that can
  raise it.
* The external ruamel.yaml loader is modelled by `yamlLoadValue` /
  `yamlLoadDoc` on the scalar/flow fragment exercised by this development.
-/

/-- A structured YAML value as held in memory by the script.  `plainStr`
models ruamel `PlainScalarString` (a `str` subclass forced to plain style),
`str` an ordinary Python string, `map` a `CommentedMap` as an insertion-ordered
association list.  Sequences and floats are not needed by any property proved
here and are omitted from the modelled fragment. -/
inductive YValue where
  | plainStr (s : String)
  | str (s : String)
  | bool (b : Bool)
  | int (n : Int)
  | null
  | map (entries : List (String × YValue))

/-- Python `in` / subscript lookup on a mapping: first entry with the key. -/
def lookupVal : List (String × YValue) → String → Option YValue
  | [], _ => none
  | (k2, v) :: rest, k => if k2 = k then some v else lookupVal rest k

/-- Python item assignment `m[k] = v` on a `CommentedMap`: replaces the value
of an existing key in place, appends a fresh key at the end. -/
def mapSet : List (String × YValue) → String → YValue → List (String × YValue)
  | [], k, v => [(k, v)]
  | (k2, v2) :: rest, k, v =>
      if k2 = k then (k, v) :: rest else (k2, v2) :: mapSet rest k v

/-- The double-quote character, `"` (written by code point to keep string
literals free of quote characters). -/
def dquote : Char := Char.ofNat 34

/-- The single-quote character, `'`. -/
def squote : Char := Char.ofNat 39

/-- The opening brace character. -/
def obrace : Char := Char.ofNat 123

/-- Does the character list start with the given prefix list?  (A structural
`startsWith`.) -/
def listStartsWith : List Char → List Char → Bool
  | _, [] => true
  | [], _ :: _ => false
  | c :: l, p :: ps => c = p && listStartsWith l ps

/-- Split a character list on every occurrence of a character — Python
`str.split(sep)` semantics: the result is always non-empty, and empty pieces
are kept. -/
def splitOnChar (sep : Char) : List Char → List (List Char)
  | [] => [[]]
  | x :: rest =>
      if x = sep then [] :: splitOnChar sep rest
      else
        match splitOnChar sep rest with
        | g :: gs => (x :: g) :: gs
        | [] => [[x]]

/-- A character Python `str.isspace` / `str.strip` treats as whitespace
(ASCII fragment, which is all the development exercises). -/
def pyIsSpaceChar (c : Char) : Bool :=
  c = ' ' || c = '\t' || c = '\n' || c = '\x0d' || c = '\x0b' || c = '\x0c'

/-- Python `value.isspace()`: non-empty and all characters whitespace. -/
def pyIsSpace (s : String) : Bool :=
  !s.toList.isEmpty && s.toList.all pyIsSpaceChar

/-- Python `s.strip()`: drop leading and trailing whitespace. -/
def pyStrip (s : String) : String :=
  String.mk (((s.toList.dropWhile pyIsSpaceChar).reverse.dropWhile pyIsSpaceChar).reverse)

/-- The guard of `set_nested_value` (src/scripts/sync_workflows.py lines
115-122): the value is a non-empty string, does not start with the GitHub
expression marker, contains neither kind of quote character, and is not pure
whitespace.  (The `isinstance(value, str)` conjunct is vacuous: every call
site passes a string.) -/
def plain_scalar_eligible (value : String) : Bool :=
  !value.toList.isEmpty
    && !listStartsWith value.toList ['$', obrace, obrace]
    && !value.toList.contains dquote
    && !value.toList.contains squote
    && !pyIsSpace value

/-- Is `t` an optionally-signed decimal integer literal? (YAML 1.1 int
resolution, decimal fragment.) -/
def isIntLit (t : String) : Bool :=
  match t.toList with
  | [] => false
  | c :: rest =>
      if c = '-' then !rest.isEmpty && rest.all Char.isDigit
      else (c :: rest).all Char.isDigit

/-- Decimal value of an optionally-signed digit string. -/
def intLitVal (t : String) : Int :=
  match t.toList with
  | '-' :: rest => -(Int.ofNat (rest.foldl (fun n c => 10 * n + c.toNat - 48) 0))
  | l => Int.ofNat (l.foldl (fun n c => 10 * n + c.toNat - 48) 0)

/-- Models `YAML(typ="safe").load` applied to a scalar value text, as done in
the fallback branch of `set_nested_value`.  `some v` is a successful load with
result `v` (`YValue.null` standing for Python `None`), `none` a raised
`YAMLError`.  The model covers the YAML 1.1 scalar resolution the script
relies on: empty/whitespace input loads to `None`; the boolean, null and
decimal-integer forms resolve to typed values; a fully quoted text loads to
its inner string; an unterminated quote is a scanner error; every other text
is a plain string with surrounding whitespace stripped. -/
def yamlLoadValue (s : String) : Option YValue :=
  let t := pyStrip s
  if t = "" then some .null
  else if t = "null" || t = "Null" || t = "NULL" || t = "~" then some .null
  else if t = "true" || t = "True" || t = "TRUE"
      || t = "yes" || t = "Yes" || t = "YES"
      || t = "on" || t = "On" || t = "ON" then some (.bool true)
  else if t = "false" || t = "False" || t = "FALSE"
      || t = "no" || t = "No" || t = "NO"
      || t = "off" || t = "Off" || t = "OFF" then some (.bool false)
  else if isIntLit t then some (.int (intLitVal t))
  else if t.toList.head? = some dquote || t.toList.head? = some squote then
    match t.toList with
    | q :: rest =>
        if rest.getLast? = some q && (rest.dropLast.all (fun c => c ≠ dquote && c ≠ squote)) then
          some (.str (String.mk rest.dropLast))
        else none
    | [] => none
  else some (.str t)

/-- The value actually stored by `set_nested_value` for a value text (lines
115-131): the plain-scalar guard branch stores a `PlainScalarString`; the
fallback branch stores the independently parsed value, or the raw text as an
ordinary string when the parse raises. -/
def inferValue (value : String) : YValue :=
  if plain_scalar_eligible value then .plainStr value
  else
    match yamlLoadValue value with
    | some v => v
    | none => .str value

/-- `set_nested_value(data, keys, value)` (lines 103-131).  Descends the
document through `keys[:-1]`, creating an empty mapping for each absent key,
and assigns the inferred value at the final key.  `none` models the unhandled
`TypeError` raised when a descent or the final assignment hits a value that is
not a mapping (string indexing/assignment, integer containment, …). -/
def set_nested_value : YValue → List String → String → Option YValue
  | .map m, [k], value => some (.map (mapSet m k (inferValue value)))
  | .map m, k :: k2 :: rest, value =>
      let child := match lookupVal m k with
        | some c => c
        | none => .map []
      match set_nested_value child (k2 :: rest) value with
      | some c2 => some (.map (mapSet m k c2))
      | none => none
  | _, _, _ => none

/-- Read the value at a dotted path (for stating properties; the script has
no such reader, this is the obvious observation function on documents). -/
def getAt : YValue → List String → Option YValue
  | v, [] => some v
  | .map m, k :: rest =>
      match lookupVal m k with
      | some v => getAt v rest
      | none => none
  | _, _ :: _ => none

/-- Python `key_path.split(".")` — also total on the empty string. -/
def splitPath (p : String) : List String :=
  (splitOnChar '.' p.toList).map String.mk

/-- `update.split(":", 1)` on the character list: `none` when no colon occurs
(the `":" not in update` check), otherwise the parts before and after the
first colon. -/
def splitColonOnce : List Char → Option (List Char × List Char)
  | [] => none
  | c :: rest =>
      if c = ':' then some ([], rest)
      else
        match splitColonOnce rest with
        | some (a, b) => some (c :: a, b)
        | none => none

/-- An override entry as read from the settings document: a mapping (its
items already coerced to text by `str(value)`), a string, or any other shape
(the final `else` branch of lines 167-168). -/
inductive Update where
  | dict (entries : List (String × String))
  | str (s : String)
  | other

/-- One iteration of the update loop of `apply_modifications` (lines
146-168): a mapping entry applies `set_nested_value` to each of its items in
order; a string entry without a colon is skipped; a string entry with a colon
is split on the first colon, both sides stripped, and applied; any other
shape is skipped.  `none` models an uncaught `TypeError` escaping
`set_nested_value`. -/
def applyStep (d : YValue) (u : Update) : Option YValue :=
  match u with
  | .dict entries =>
      entries.foldlM (fun dd kv => set_nested_value dd (splitPath kv.1) kv.2) d
  | .str s =>
      match splitColonOnce s.toList with
      | none => some d
      | some (a, b) =>
          set_nested_value d (splitPath (pyStrip (String.mk a))) (pyStrip (String.mk b))
  | .other => some d

/-- Does this entry hit the `logger.warning("Skipping invalid update
format")` branches (lines 156-158 and 167-168)? -/
def updateWarns : Update → Bool
  | .str s => (splitColonOnce s.toList).isNone
  | .other => true
  | .dict _ => false

/-- The full update loop of `apply_modifications` over an already-parsed
document; an uncaught exception (`none`) aborts the loop. -/
def apply_updates (d : YValue) (us : List Update) : Option YValue :=
  us.foldlM applyStep d

/-- Outcome of `apply_modifications`: `parseError` is the `return None` taken
for empty or unparsable input, `crash` an exception escaping the function,
`ok` the mutated document returned to the caller. -/
inductive ApplyResult where
  | parseError
  | crash
  | ok (d : YValue)

/-- `apply_modifications(content, updates)` (lines 134-170), taken from the
loader's result on `content`: a load that yields `None` or raises gives
`parseError`; otherwise the update loop runs on the document. -/
def apply_modifications (parsed : Option YValue) (updates : List Update) : ApplyResult :=
  match parsed with
  | none => .parseError
  | some d =>
      match apply_updates d updates with
      | none => .crash
      | some d2 => .ok d2

/-- Models the formatting-preserving `yaml.load` on a whole document, on the
document fragment exercised here: the empty/whitespace document and the
explicit null forms load to `None` (hence `none`, folded together with a
raised `YAMLError` exactly as `apply_modifications` folds them), the flow
mapping `{}` loads to an empty mapping, and other texts are modelled as
scalar documents through `yamlLoadValue`. -/
def yamlLoadDoc (s : String) : Option YValue :=
  if pyStrip s = "" then none
  else if pyStrip s = "\x7b\x7d" then some (.map [])
  else
    match yamlLoadValue s with
    | some .null => none
    | some v => some v
    | none => none

/-- Python truthiness of a structured value, as used by `if content:` and
`if modified_yaml:`. -/
def pyTruthy : YValue → Bool
  | .null => false
  | .bool b => b
  | .int n => n ≠ 0
  | .str s => !s.toList.isEmpty
  | .plainStr s => !s.toList.isEmpty
  | .map m => !m.isEmpty

/-- The observable outcome of one HTTP GET in `download_workflow`: a response
with a status code and body text, or a raised `requests.RequestException`. -/
inductive HttpOutcome where
  | response (status : Nat) (text : String)
  | exception

/-- `download_workflow` (lines 68-100) on the outcome of its single request:
404 and non-200 statuses and network exceptions all yield `None`; a 200
response yields its body text. -/
def download_workflow : HttpOutcome → Option String
  | .response status text =>
      if status = 404 then none
      else if status ≠ 200 then none
      else some text
  | .exception => none

/-- The body of the `process_keep_workflows` loop (lines 202-206) for one
filename with its fetch outcome: the files written, as (name, raw text)
pairs.  The write happens only when `download_workflow` returns a *truthy*
text (`if content:`), so an empty body is never written. -/
def process_keep_one (name : String) (fetched : HttpOutcome) : List (String × String) :=
  match download_workflow fetched with
  | some t => if t.toList.isEmpty then [] else [(name, t)]
  | none => []

/-- `process_keep_workflows` (lines 199-206): the writes performed over the
whole keep list, given each file's fetch outcome. -/
def process_keep_workflows (items : List (String × HttpOutcome)) : List (String × String) :=
  items.flatMap (fun it => process_keep_one it.1 it.2)

/-- The body of the `process_modify_workflows` loop (lines 212-221) for one
filename: the structured documents written for it (`none` models an uncaught
exception escaping `apply_modifications` and aborting the run).  A falsy
download or a `None` from `apply_modifications` writes nothing; a truthy
modified document is written. -/
def process_modify_one (name : String) (updates : List Update) (fetched : HttpOutcome) :
    Option (List (String × YValue)) :=
  match download_workflow fetched with
  | none => some []
  | some t =>
      if t.toList.isEmpty then some []
      else
        match apply_modifications (yamlLoadDoc t) updates with
        | .parseError => some []
        | .crash => none
        | .ok d => if pyTruthy d then some [(name, d)] else some []

/-- `process_modify_workflows` (lines 209-221): sequential processing of the
modify entries; an uncaught exception aborts the whole pass. -/
def process_modify_workflows (items : List (String × List Update))
    (fetch : String → HttpOutcome) : Option (List (String × YValue)) :=
  items.foldlM (fun acc it => (process_modify_one it.1 it.2 (fetch it.1)).map (acc ++ ·)) []

/-- Severity of a log line. -/
inductive Severity where
  | info
  | warning
  | error
  deriving DecidableEq

/-- Lexicographic code-point order on character lists (Python string `≤`). -/
def listLe : List Char → List Char → Bool
  | [], _ => true
  | _ :: _, [] => false
  | x :: xs, y :: ys => if x = y then listLe xs ys else decide (x.toNat < y.toNat)

/-- Insert into a sorted list of strings. -/
def sortInsert (x : String) : List String → List String
  | [] => [x]
  | y :: rest => if listLe x.toList y.toList then x :: y :: rest else y :: sortInsert x rest

/-- Python `sorted` on a list of strings (insertion sort). -/
def pySorted : List String → List String
  | [] => []
  | x :: rest => sortInsert x (pySorted rest)

/-- Does the character list end with the given suffix? -/
def listEndsWith (l suffix : List Char) : Bool :=
  listStartsWith l.reverse suffix.reverse

/-- Keep the first occurrence of each string (set formation). -/
def dedupFirst (seen : List String) : List String → List String
  | [] => []
  | x :: rest =>
      if seen.contains x then dedupFirst seen rest
      else x :: dedupFirst (x :: seen) rest

/-- The filenames the local directory scan considers (lines 232-233): the
`*.yaml` glob followed by the `*.yml` glob over the listing, as a set
(duplicates removed). -/
def localNames (listing : List String) : List String :=
  dedupFirst []
    ((listing.filter (fun p => listEndsWith p.toList ".yaml".toList))
      ++ (listing.filter (fun p => listEndsWith p.toList ".yml".toList)))

/-- `check_extra_workflows` (lines 224-258), given the local directory
listing: the per-file log lines it emits.  Each extra workflow — a local
file in neither the keep list, the modify mapping, nor the unique-local
list — is reported at `warning` severity in sorted order; when there is no
extra workflow a single `info` line is emitted.  (The surrounding banner
lines carry no filename and are not modelled.) -/
def check_extra_workflows (listing keep modifyKeys unique : List String) :
    List (Severity × String) :=
  let extras := (localNames listing).filter
    (fun w => !(keep.contains w || modifyKeys.contains w || unique.contains w))
  if extras.isEmpty then
    [(.info, "No extra workflows found - all local workflows are managed by settings.")]
  else
    (pySorted extras).map (fun w => (.warning, w))

/-- Content handed to `write_workflow_file`: raw text for keep files, a
structured document (serialized through `yaml.dump`) for modify files. -/
inductive WriteContent where
  | raw (text : String)
  | yamlObj (d : YValue)

/-- The settings categories, as unpacked in `main` (lines 274-278). -/
structure SyncSettings where
  keep : List String
  ignore : List String
  modify : List (String × List Update)
  unique_tier4_workflows : List String

/-- The file writes and the drift report of one run of `main` (lines
261-295), given the fetch outcomes and the local directory listing.  The
unique-workflow check and all banner logging are write-free and not
modelled; `none` models an uncaught exception aborting the run during the
modify pass.  The `ignore` category is read in `main` only for a logged
count, so it appears nowhere below. -/
def main_run (s : SyncSettings) (fetch : String → HttpOutcome) (listing : List String) :
    Option (List (String × WriteContent) × List (Severity × String)) :=
  let keepWrites := (process_keep_workflows (s.keep.map (fun n => (n, fetch n)))).map
    (fun w => (w.1, WriteContent.raw w.2))
  match process_modify_workflows s.modify fetch with
  | none => none
  | some modWrites =>
      some (keepWrites ++ modWrites.map (fun w => (w.1, WriteContent.yamlObj w.2)),
        check_extra_workflows listing s.keep (s.modify.map Prod.fst) s.unique_tier4_workflows)

-- Sanity checks on the embedding (concrete evaluations).
example : inferValue "ubuntu-22.04" = .plainStr "ubuntu-22.04" := rfl
example : inferValue "true" = .plainStr "true" := rfl
example : inferValue "$\x7b\x7b matrix.os \x7d\x7d" = .str "$\x7b\x7b matrix.os \x7d\x7d" := rfl
example : inferValue "" = .null := rfl
example : yamlLoadDoc "" = none := rfl
example : yamlLoadDoc "\x7b\x7d" = some (.map []) := rfl
example :
    set_nested_value (.map []) ["a", "b", "c"] "x"
      = some (.map [("a", .map [("b", .map [("c", .plainStr "x")])])]) := rfl
example :
    apply_updates (.map []) [.str "a: y", .str "a.b: x"] = none := rfl
example : process_keep_one "w.yaml" (.response 200 "") = [] := rfl
example : process_keep_one "w.yaml" (.response 200 "text") = [("w.yaml", "text")] := rfl
example : process_keep_one "w.yaml" (.response 404 "nope") = [] := rfl
example :
    check_extra_workflows ["a.yaml", "b.yaml"] ["a.yaml"] [] []
      = [(.warning, "b.yaml")] := rfl
example :
    check_extra_workflows ["a.yaml"] ["a.yaml"] [] []
      = [(.info, "No extra workflows found - all local workflows are managed by settings.")] := rfl

/-- Does walking `keys[:-1]` from `d`, creating absent keys, reach a value
that is not a mapping (or is the final assignment target not a mapping)?
This predicate depends only on the document and the path, not on the value
text: it characterizes exactly the `TypeError` of `set_nested_value`. -/
def pathBlocked : YValue → List String → Bool
  | _, [] => true
  | d, [_] => match d with | .map _ => false | _ => true
  | d, k :: k2 :: rest =>
      match d with
      | .map m =>
          (match lookupVal m k with
           | some c => pathBlocked c (k2 :: rest)
           | none => pathBlocked (.map []) (k2 :: rest))
      | _ => true

/-- All proper prefixes of `p` resolve to mappings in `d`. -/
def PrefixMapsAt (d : YValue) (p : List String) : Prop :=
  ∀ qs, qs <+: p → qs ≠ p → ∃ m, getAt d qs = some (.map m)

/-! ## Helper lemmas about the mapping primitives -/

theorem lookup_mapSet_self (m : List (String × YValue)) (k : String) (v : YValue) :
    lookupVal (mapSet m k v) k = some v := by
  induction m with
  | nil => simp [mapSet, lookupVal]
  | cons hd tl ih =>
      by_cases h : hd.1 = k
      · simp [mapSet, h, lookupVal]
      · simpa [mapSet, h, lookupVal] using ih

theorem lookup_mapSet_ne (m : List (String × YValue)) (k k2 : String) (v : YValue)
    (h : k2 ≠ k) : lookupVal (mapSet m k v) k2 = lookupVal m k2 := by
  induction m with
  | nil => simp [mapSet, lookupVal, Ne.symm h]
  | cons hd tl ih =>
      by_cases hk : hd.1 = k
      · subst hk
        simp [mapSet, lookupVal, h, Ne.symm h]
      · simp only [mapSet, hk, if_false]
        by_cases hk2 : hd.1 = k2
        · simp [lookupVal, hk2]
        · simpa [lookupVal, hk2] using ih

theorem mapSet_absent (m : List (String × YValue)) (k : String) (v : YValue)
    (h : lookupVal m k = none) : mapSet m k v = m ++ [(k, v)] := by
  induction m with
  | nil => simp [mapSet]
  | cons hd tl ih =>
      by_cases hk : hd.1 = k
      · simp [lookupVal, hk] at h
      · simp only [lookupVal, hk, if_false] at h
        simp [mapSet, hk, ih h]

/-- The nested value built when every level of the path is freshly created:
singleton mappings down the path, ending in the inferred value. -/
def chainVal : List String → String → YValue
  | [], value => inferValue value
  | k :: rest, value => .map [(k, chainVal rest value)]

theorem set_nested_empty (k : String) (rest : List String) (value : String) :
    set_nested_value (.map []) (k :: rest) value = some (.map [(k, chainVal rest value)]) := by
  induction rest generalizing k with
  | nil => rfl
  | cons k2 rest2 ih =>
      simp only [set_nested_value, lookupVal, chainVal]
      rw [ih k2]
      rfl

theorem prefix_antisymm {l1 l2 : List String} (h1 : l1 <+: l2) (h2 : l2 <+: l1) :
    l1 = l2 :=
  h1.eq_of_length (le_antisymm h1.length_le h2.length_le)

/-! ## Lemmas about `set_nested_value` -/

theorem set_nested_nil (d : YValue) (value : String) :
    set_nested_value d [] value = none := by
  cases d <;> rfl

theorem set_nested_nonmap (d : YValue) (ks : List String) (value : String)
    (h : ∀ m, d ≠ .map m) : set_nested_value d ks value = none := by
  cases d <;> first
    | (exact absurd rfl (h _))
    | (cases ks with
        | nil => rfl
        | cons k kt => cases kt <;> rfl)

theorem set_nested_absent (m : List (String × YValue)) (k : String) (rest : List String)
    (value : String) (h : lookupVal m k = none) :
    set_nested_value (.map m) (k :: rest) value
      = some (.map (m ++ [(k, chainVal rest value)])) := by
  cases rest with
  | nil =>
      simp only [set_nested_value, chainVal]
      rw [mapSet_absent m k _ h]
  | cons k2 rest2 =>
      simp only [set_nested_value, h]
      rw [set_nested_empty]
      simp only [chainVal]
      rw [mapSet_absent m k _ h]

theorem set_nested_some_src (ks : List String) (d d2 : YValue) (value : String)
    (h : set_nested_value d ks value = some d2) : ∃ m, d = .map m := by
  cases d with
  | map m => exact ⟨m, rfl⟩
  | plainStr s => rw [set_nested_nonmap _ _ _ (by intro m; simp)] at h; exact absurd h (by simp)
  | str s => rw [set_nested_nonmap _ _ _ (by intro m; simp)] at h; exact absurd h (by simp)
  | bool b => rw [set_nested_nonmap _ _ _ (by intro m; simp)] at h; exact absurd h (by simp)
  | int n => rw [set_nested_nonmap _ _ _ (by intro m; simp)] at h; exact absurd h (by simp)
  | null => rw [set_nested_nonmap _ _ _ (by intro m; simp)] at h; exact absurd h (by simp)

theorem set_nested_some_map (ks : List String) (d d2 : YValue) (value : String)
    (h : set_nested_value d ks value = some d2) : ∃ m2, d2 = .map m2 := by
  obtain ⟨m, rfl⟩ := set_nested_some_src ks _ _ value h
  cases ks with
  | nil => rw [set_nested_nil] at h; exact absurd h (by simp)
  | cons k kt =>
      cases kt with
      | nil => simp only [set_nested_value, Option.some.injEq] at h; exact ⟨_, h.symm⟩
      | cons k2 rest =>
          simp only [set_nested_value] at h
          cases hset : set_nested_value
              (match lookupVal m k with | some c => c | none => .map []) (k2 :: rest) value with
          | none => rw [hset] at h; exact absurd h (by simp)
          | some c2 => rw [hset] at h; simp only [Option.some.injEq] at h; exact ⟨_, h.symm⟩

/-- After a successful `set_nested_value`, reading the written path back gives
exactly the inferred value. -/
theorem getAt_set_nested (ks : List String) (d d2 : YValue) (value : String)
    (h : set_nested_value d ks value = some d2) :
    getAt d2 ks = some (inferValue value) := by
  induction ks generalizing d d2 with
  | nil => rw [set_nested_nil] at h; exact absurd h (by simp)
  | cons k kt ih =>
      cases d with
      | map m =>
          cases kt with
          | nil =>
              simp only [set_nested_value, Option.some.injEq] at h
              subst h
              simp [getAt, lookup_mapSet_self]
          | cons k2 rest =>
              simp only [set_nested_value] at h
              cases hset : set_nested_value
                  (match lookupVal m k with | some c => c | none => .map []) (k2 :: rest) value with
              | none => rw [hset] at h; exact absurd h (by simp)
              | some c2 =>
                  rw [hset] at h
                  simp only [Option.some.injEq] at h
                  subst h
                  simp only [getAt, lookup_mapSet_self]
                  exact ih _ _ hset
      | plainStr s => exact absurd (by rw [set_nested_nonmap] at h; exact h; intro m; simp) (by simp)
      | str s => exact absurd (by rw [set_nested_nonmap] at h; exact h; intro m; simp) (by simp)
      | bool b => exact absurd (by rw [set_nested_nonmap] at h; exact h; intro m; simp) (by simp)
      | int n => exact absurd (by rw [set_nested_nonmap] at h; exact h; intro m; simp) (by simp)
      | null => exact absurd (by rw [set_nested_nonmap] at h; exact h; intro m; simp) (by simp)

/-- Reading a path that diverges from a freshly created chain gives nothing. -/
theorem getAt_chainVal_none (xs ys : List String) (value : String)
    (h1 : ¬ xs <+: ys) (h2 : ¬ ys <+: xs) :
    getAt (chainVal xs value) ys = none := by
  induction xs generalizing ys with
  | nil => exact absurd (List.nil_prefix) h1
  | cons x xt ih =>
      cases ys with
      | nil => exact absurd (List.nil_prefix) h2
      | cons y yt =>
          by_cases hxy : y = x
          · subst hxy
            have h1t : ¬ xt <+: yt := fun hp => h1 (List.cons_prefix_cons.mpr ⟨rfl, hp⟩)
            have h2t : ¬ yt <+: xt := fun hp => h2 (List.cons_prefix_cons.mpr ⟨rfl, hp⟩)
            simpa [chainVal, getAt, lookupVal] using ih yt h1t h2t
          · simp [chainVal, getAt, lookupVal, Ne.symm hxy]

/-- Every proper prefix of a successfully written path resolves to a mapping
afterwards. -/
theorem getAt_set_nested_prefix (ks : List String) (d d2 : YValue) (qs : List String)
    (value : String) (h : set_nested_value d ks value = some d2)
    (hp : qs <+: ks) (hne : qs ≠ ks) :
    ∃ m, getAt d2 qs = some (.map m) := by
  induction ks generalizing d d2 qs with
  | nil => rw [set_nested_nil] at h; exact absurd h (by simp)
  | cons k kt ih =>
      obtain ⟨m, rfl⟩ := set_nested_some_src _ _ _ _ h
      cases qs with
      | nil =>
          obtain ⟨m2, rfl⟩ := set_nested_some_map _ _ _ _ h
          exact ⟨m2, rfl⟩
      | cons q qt =>
          obtain ⟨rfl, hpt⟩ := List.cons_prefix_cons.mp hp
          have hnet : qt ≠ kt := fun hq => hne (by rw [hq])
          cases kt with
          | nil => exact absurd (List.prefix_nil.mp hpt) hnet
          | cons k2 rest =>
              simp only [set_nested_value] at h
              cases hset : set_nested_value
                  (match lookupVal m q with | some c => c | none => .map []) (k2 :: rest) value with
              | none => rw [hset] at h; exact absurd h (by simp)
              | some c2 =>
                  rw [hset] at h
                  simp only [Option.some.injEq] at h
                  subst h
                  simp only [getAt, lookup_mapSet_self]
                  exact ih _ _ qt hset hpt hnet

/-- If every proper prefix of a non-empty path already resolves to a mapping,
`set_nested_value` cannot raise. -/
theorem set_nested_succeeds (ks : List String) (d : YValue) (value : String)
    (hne : ks ≠ []) (h : PrefixMapsAt d ks) :
    ∃ d2, set_nested_value d ks value = some d2 := by
  induction ks generalizing d with
  | nil => exact absurd rfl hne
  | cons k kt ih =>
      obtain ⟨m, hm⟩ := h [] List.nil_prefix (by simp)
      simp only [getAt, Option.some.injEq] at hm
      subst hm
      cases kt with
      | nil => exact ⟨_, rfl⟩
      | cons k2 rest =>
          obtain ⟨m1, hm1⟩ := h [k] (List.cons_prefix_cons.mpr ⟨rfl, List.nil_prefix⟩) (by simp)
          simp only [getAt] at hm1
          cases hlk : lookupVal m k with
          | none => rw [hlk] at hm1; exact absurd hm1 (by simp)
          | some c =>
              rw [hlk] at hm1
              simp only [getAt] at hm1
              have hc : c = .map m1 := by
                cases c <;> simp_all [getAt]
              subst hc
              have hsub : PrefixMapsAt (.map m1) (k2 :: rest) := by
                intro qs hq hqne
                obtain ⟨m2, hm2⟩ := h (k :: qs) (List.cons_prefix_cons.mpr ⟨rfl, hq⟩)
                  (by intro hcontra; exact hqne (by injection hcontra))
                refine ⟨m2, ?_⟩
                simpa [getAt, hlk] using hm2
              obtain ⟨c2, hc2⟩ := ih (.map m1) (by simp) hsub
              refine ⟨.map (mapSet m k c2), ?_⟩
              simp only [set_nested_value, hlk, hc2]

/-- `set_nested_value` raises exactly when the walk hits a non-mapping —
independently of the value text. -/
theorem set_nested_none_iff (ks : List String) (d : YValue) (value : String) :
    set_nested_value d ks value = none ↔ pathBlocked d ks = true := by
  induction ks generalizing d with
  | nil => simp [set_nested_nil, pathBlocked]
  | cons k kt ih =>
      cases kt with
      | nil =>
          cases d <;> simp [set_nested_value, pathBlocked]
      | cons k2 rest =>
          cases d with
          | map m =>
              simp only [set_nested_value, pathBlocked]
              cases hlk : lookupVal m k with
              | some c =>
                  rw [← ih c]
                  cases set_nested_value c (k2 :: rest) value <;> simp
              | none =>
                  rw [← ih (.map [])]
                  cases set_nested_value (.map []) (k2 :: rest) value <;> simp
          | plainStr s => simp [set_nested_value, pathBlocked]
          | str s => simp [set_nested_value, pathBlocked]
          | bool b => simp [set_nested_value, pathBlocked]
          | int n => simp [set_nested_value, pathBlocked]
          | null => simp [set_nested_value, pathBlocked]

/-- Frame property: a successful `set_nested_value` at `ks` leaves every path
that neither extends nor is extended by `ks` unchanged. -/
theorem getAt_set_nested_frame (ks : List String) (d d2 : YValue) (qs : List String)
    (value : String) (h : set_nested_value d ks value = some d2)
    (h1 : ¬ ks <+: qs) (h2 : ¬ qs <+: ks) :
    getAt d2 qs = getAt d qs := by
  induction ks generalizing d d2 qs with
  | nil => rw [set_nested_nil] at h; exact absurd h (by simp)
  | cons k kt ih =>
      obtain ⟨m, rfl⟩ := set_nested_some_src _ _ _ _ h
      cases qs with
      | nil => exact absurd (List.nil_prefix) h2
      | cons q qt =>
          by_cases hqk : q = k
          · subst hqk
            have h1t : ¬ kt <+: qt := fun hp => h1 (List.cons_prefix_cons.mpr ⟨rfl, hp⟩)
            have h2t : ¬ qt <+: kt := fun hp => h2 (List.cons_prefix_cons.mpr ⟨rfl, hp⟩)
            cases kt with
            | nil => exact absurd (List.nil_prefix) h1t
            | cons k2 rest =>
                simp only [set_nested_value] at h
                cases hset : set_nested_value
                    (match lookupVal m q with | some c => c | none => .map []) (k2 :: rest) value with
                | none => rw [hset] at h; exact absurd h (by simp)
                | some c2 =>
                    rw [hset] at h
                    simp only [Option.some.injEq] at h
                    subst h
                    simp only [getAt, lookup_mapSet_self]
                    cases hlk : lookupVal m q with
                    | some c =>
                        rw [hlk] at hset
                        simp only [getAt, hlk]
                        exact ih _ _ qt hset h1t h2t
                    | none =>
                        rw [hlk] at hset
                        rw [set_nested_empty] at hset
                        simp only [Option.some.injEq] at hset
                        subst hset
                        simp only [getAt, hlk]
                        cases qt with
                        | nil => exact absurd (List.nil_prefix) h2t
                        | cons q2 qt2 =>
                            by_cases hq2 : q2 = k2
                            · subst hq2
                              have h1tt : ¬ rest <+: qt2 :=
                                fun hp => h1t (List.cons_prefix_cons.mpr ⟨rfl, hp⟩)
                              have h2tt : ¬ qt2 <+: rest :=
                                fun hp => h2t (List.cons_prefix_cons.mpr ⟨rfl, hp⟩)
                              simpa [getAt, lookupVal] using
                                getAt_chainVal_none rest qt2 value h1tt h2tt
                            · simp [getAt, lookupVal, Ne.symm hq2]
          · cases kt with
            | nil =>
                simp only [set_nested_value, Option.some.injEq] at h
                subst h
                simp [getAt, lookup_mapSet_ne m k q _ hqk]
            | cons k2 rest =>
                simp only [set_nested_value] at h
                cases hset : set_nested_value
                    (match lookupVal m k with | some c => c | none => .map []) (k2 :: rest) value with
                | none => rw [hset] at h; exact absurd h (by simp)
                | some c2 =>
                    rw [hset] at h
                    simp only [Option.some.injEq] at h
                    subst h
                    simp [getAt, lookup_mapSet_ne m k q _ hqk]

/-! ## The update loop as a flat list of path/value operations -/

/-- The atomic `set_nested_value` operations one override entry performs, in
order: each item of a mapping entry; the split-and-stripped parts of a string
entry containing a colon; nothing for a skipped entry. -/
def updateOps : Update → List (List String × String)
  | .dict entries => entries.map (fun kv => (splitPath kv.1, kv.2))
  | .str s =>
      match splitColonOnce s.toList with
      | none => []
      | some (a, b) => [(splitPath (pyStrip (String.mk a)), pyStrip (String.mk b))]
  | .other => []

/-- Run a flat list of path/value operations (exception propagates). -/
def applyOps (d : YValue) (ops : List (List String × String)) : Option YValue :=
  ops.foldlM (fun dd op => set_nested_value dd op.1 op.2) d

/-- The paths a flat operation list targets. -/
def opsPaths (ops : List (List String × String)) : List (List String) :=
  ops.map Prod.fst

/-- No targeted path strictly extends another targeted path. -/
def NoStrictExt (ps : List (List String)) : Prop :=
  ∀ p ∈ ps, ∀ q ∈ ps, p <+: q → p = q

theorem applyStep_eq_applyOps (d : YValue) (u : Update) :
    applyStep d u = applyOps d (updateOps u) := by
  cases u with
  | dict entries =>
      simp only [applyStep, updateOps, applyOps]
      rw [List.foldlM_map]
  | str s =>
      simp only [applyStep, updateOps]
      cases splitColonOnce s.toList with
      | none => rfl
      | some ab =>
          simp only [applyOps, List.foldlM_cons, List.foldlM_nil]
          cases set_nested_value d (splitPath (pyStrip (String.mk ab.1)))
            (pyStrip (String.mk ab.2)) <;> rfl
  | other => rfl

theorem applyOps_append (d : YValue) (l1 l2 : List (List String × String)) :
    applyOps d (l1 ++ l2) = (applyOps d l1).bind (fun e => applyOps e l2) := by
  induction l1 generalizing d with
  | nil => simp [applyOps]
  | cons op rest ih =>
      simp only [applyOps, List.cons_append, List.foldlM_cons] at ih ⊢
      cases set_nested_value d op.1 op.2 with
      | none => rfl
      | some d2 => exact ih d2

theorem apply_updates_eq_applyOps (d : YValue) (us : List Update) :
    apply_updates d us = applyOps d (us.flatMap updateOps) := by
  induction us generalizing d with
  | nil => rfl
  | cons u rest ih =>
      simp only [apply_updates, List.foldlM_cons, List.flatMap_cons] at ih ⊢
      rw [applyOps_append]
      rw [← applyStep_eq_applyOps]
      cases applyStep d u with
      | none => rfl
      | some d2 => exact ih d2

theorem applyOps_cons (d : YValue) (op : List String × String)
    (rest : List (List String × String)) :
    applyOps d (op :: rest)
      = match set_nested_value d op.1 op.2 with
        | none => none
        | some e => applyOps e rest := by
  simp only [applyOps, List.foldlM_cons]
  cases set_nested_value d op.1 op.2 <;> rfl

theorem applyOps_nil (d : YValue) : applyOps d [] = some d := rfl

/-- Frame property through a whole operation list: paths unrelated to every
targeted path are unchanged. -/
theorem applyOps_frame (ops : List (List String × String)) (d d2 : YValue)
    (qs : List String) (h : applyOps d ops = some d2)
    (hops : ∀ op ∈ ops, ¬ op.1 <+: qs ∧ ¬ qs <+: op.1) :
    getAt d2 qs = getAt d qs := by
  induction ops generalizing d with
  | nil => rw [applyOps_nil] at h; rw [Option.some.inj h]
  | cons op rest ih =>
      rw [applyOps_cons] at h
      cases hset : set_nested_value d op.1 op.2 with
      | none => rw [hset] at h; exact absurd h (by simp)
      | some e =>
          rw [hset] at h
          obtain ⟨h1, h2⟩ := hops op (by simp)
          rw [ih e h (fun op2 hmem => hops op2 (by simp [hmem]))]
          exact getAt_set_nested_frame op.1 d e qs op.2 hset h1 h2

/-- A successful write at `ks` preserves "all proper prefixes of `p` are
mappings", provided `ks` does not strictly extend `p`. -/
theorem set_preserves_prefixMaps (ks : List String) (d d2 : YValue) (p : List String)
    (value : String) (h : set_nested_value d ks value = some d2)
    (hkp : ks <+: p → ks = p) (hm : PrefixMapsAt d p) : PrefixMapsAt d2 p := by
  intro qs hq hqne
  by_cases h1 : ks <+: qs
  · have hkeq : ks = p := hkp (h1.trans hq)
    subst hkeq
    exact absurd (prefix_antisymm hq (h1)) hqne
  · by_cases h2 : qs <+: ks
    · by_cases heq : qs = ks
      · subst heq
        have : qs = p := hkp hq
        exact absurd this hqne
      · exact getAt_set_nested_prefix ks d d2 qs value h h2 heq
    · rw [getAt_set_nested_frame ks d d2 qs value h h1 h2]
      exact hm qs hq hqne

/-- `set_preserves_prefixMaps` through a whole operation list. -/
theorem applyOps_preserves_prefixMaps (ops : List (List String × String))
    (d d2 : YValue) (p : List String) (h : applyOps d ops = some d2)
    (hops : ∀ q ∈ opsPaths ops, q <+: p → q = p) (hm : PrefixMapsAt d p) :
    PrefixMapsAt d2 p := by
  induction ops generalizing d with
  | nil => rw [applyOps_nil] at h; rw [← Option.some.inj h]; exact hm
  | cons op rest ih =>
      rw [applyOps_cons] at h
      cases hset : set_nested_value d op.1 op.2 with
      | none => rw [hset] at h; exact absurd h (by simp)
      | some e =>
          rw [hset] at h
          refine ih e h (fun q hq => hops q (by simp [opsPaths] at hq ⊢; tauto)) ?_
          exact set_preserves_prefixMaps op.1 d e p op.2 hset
            (hops op.1 (by simp [opsPaths])) hm

/-- After a fully successful run without strict path extensions, every proper
prefix of every targeted path resolves to a mapping. -/
theorem applyOps_prefixMaps (ops : List (List String × String)) (d d1 : YValue)
    (hnoext : NoStrictExt (opsPaths ops)) (h : applyOps d ops = some d1) :
    ∀ p ∈ opsPaths ops, PrefixMapsAt d1 p := by
  induction ops generalizing d with
  | nil => intro p hp; simp [opsPaths] at hp
  | cons op rest ih =>
      rw [applyOps_cons] at h
      cases hset : set_nested_value d op.1 op.2 with
      | none => rw [hset] at h; exact absurd h (by simp)
      | some e =>
          rw [hset] at h
          intro p hp
          have hnoextRest : NoStrictExt (opsPaths rest) := by
            intro a ha b hb hab
            exact hnoext a (by simp [opsPaths] at ha ⊢; tauto)
              b (by simp [opsPaths] at hb ⊢; tauto) hab
          have hcases : p = op.1 ∨ p ∈ opsPaths rest := by
            simpa [opsPaths] using hp
          rcases hcases with hph | hpr
          · subst hph
            refine applyOps_preserves_prefixMaps rest e d1 op.1 h ?_ ?_
            · intro q hq hqp
              exact hnoext q (by simp [opsPaths] at hq ⊢; tauto) op.1 (by simp [opsPaths]) hqp
            · intro qs hq hqne
              exact getAt_set_nested_prefix op.1 d e qs op.2 hset hq hqne
          · exact ih e hnoextRest h p hpr

/-- The last value text written to a path by an operation list. -/
def lastVal (ops : List (List String × String)) (p : List String) : Option String :=
  ((ops.filter (fun op => decide (op.1 = p))).getLast?).map Prod.snd

theorem lastVal_isSome_of_mem (ops : List (List String × String)) (p : List String)
    (h : p ∈ opsPaths ops) : ∃ v, lastVal ops p = some v := by
  have hne : ops.filter (fun op => decide (op.1 = p)) ≠ [] := by
    simp only [opsPaths, List.mem_map] at h
    obtain ⟨op, hmem, hfst⟩ := h
    intro hcontra
    have : op ∈ ops.filter (fun op => decide (op.1 = p)) :=
      List.mem_filter.mpr ⟨hmem, by simp [hfst]⟩
    rw [hcontra] at this
    simp at this
  obtain ⟨x, hx⟩ := Option.isSome_iff_exists.mp (List.getLast?_isSome.mpr hne)
  exact ⟨x.2, by simp [lastVal, hx]⟩

/-- After a successful run without strict path extensions, each targeted path
holds the inferred value of the *last* text written to it. -/
theorem applyOps_lastVal (ops : List (List String × String)) (d d1 : YValue)
    (p : List String) (v : String) (hnoext : NoStrictExt (opsPaths ops))
    (h : applyOps d ops = some d1) (hl : lastVal ops p = some v) :
    getAt d1 p = some (inferValue v) := by
  induction ops generalizing d with
  | nil => simp [lastVal] at hl
  | cons op rest ih =>
      rw [applyOps_cons] at h
      cases hset : set_nested_value d op.1 op.2 with
      | none => rw [hset] at h; exact absurd h (by simp)
      | some e =>
          rw [hset] at h
          have hnoextRest : NoStrictExt (opsPaths rest) := by
            intro a ha b hb hab
            exact hnoext a (by simp [opsPaths] at ha ⊢; tauto)
              b (by simp [opsPaths] at hb ⊢; tauto) hab
          by_cases hrp : rest.filter (fun op2 => decide (op2.1 = p)) = []
          · -- the head is the only operation on `p`
            have hfst : op.1 = p := by
              by_contra hne
              rw [lastVal, List.filter_cons, if_neg (by simpa using hne), hrp] at hl
              simp at hl
            have hv : v = op.2 := by
              rw [lastVal, List.filter_cons, if_pos (by simpa using hfst), hrp] at hl
              simp at hl
              exact hl.symm
            subst hfst
            subst hv
            have hget : getAt e op.1 = some (inferValue op.2) :=
              getAt_set_nested (op.1) d e op.2 hset
            rw [applyOps_frame rest e d1 op.1 h ?_]
            · exact hget
            · intro op2 hmem
              have hne2 : op2.1 ≠ op.1 := by
                intro hcontra
                have : op2 ∈ rest.filter (fun op2 => decide (op2.1 = op.1)) :=
                  List.mem_filter.mpr ⟨hmem, by simp [hcontra]⟩
                rw [hrp] at this
                simp at this
              have hmem2 : op2.1 ∈ opsPaths (op :: rest) :=
                List.mem_map.mpr ⟨op2, List.mem_cons_of_mem _ hmem, rfl⟩
              constructor
              · intro hp
                exact hne2 (hnoext op2.1 hmem2 op.1 (by simp [opsPaths]) hp)
              · intro hp
                exact hne2 ((hnoext op.1 (by simp [opsPaths]) op2.1 hmem2 hp).symm)
          · -- the last operation on `p` lies in `rest`
            have hl2 : lastVal rest p = some v := by
              rw [lastVal, List.filter_cons] at hl
              by_cases hfst : op.1 = p
              · rw [if_pos (by simpa using hfst)] at hl
                cases hrest : rest.filter (fun op2 => decide (op2.1 = p)) with
                | nil => exact absurd hrest hrp
                | cons b t =>
                    rw [hrest] at hl
                    rw [List.getLast?_cons_cons] at hl
                    rw [lastVal, hrest]
                    exact hl
              · rw [if_neg (by simpa using hfst)] at hl
                exact hl
            exact ih e hnoextRest h hl2

/-- A run over paths whose proper prefixes are all mappings cannot raise. -/
theorem applyOps_succeeds (ops : List (List String × String)) (d : YValue)
    (hne : ∀ p ∈ opsPaths ops, p ≠ [])
    (hnoext : NoStrictExt (opsPaths ops))
    (hm : ∀ p ∈ opsPaths ops, PrefixMapsAt d p) :
    ∃ d2, applyOps d ops = some d2 := by
  induction ops generalizing d with
  | nil => exact ⟨d, rfl⟩
  | cons op rest ih =>
      obtain ⟨e, he⟩ := set_nested_succeeds op.1 d op.2
        (hne op.1 (by simp [opsPaths])) (hm op.1 (by simp [opsPaths]))
      have hnoextRest : NoStrictExt (opsPaths rest) := by
        intro a ha b hb hab
        exact hnoext a (by simp [opsPaths] at ha ⊢; tauto)
          b (by simp [opsPaths] at hb ⊢; tauto) hab
      obtain ⟨d2, hd2⟩ := ih e
        (fun p hp => hne p (by simp [opsPaths] at hp ⊢; tauto))
        hnoextRest
        (fun p hp => set_preserves_prefixMaps op.1 d e p op.2 he
          (fun hpre => hnoext op.1 (by simp [opsPaths])
            p (by simp [opsPaths] at hp ⊢; tauto) hpre)
          (hm p (by simp [opsPaths] at hp ⊢; tauto)))
      exact ⟨d2, by rw [applyOps_cons, he]; exact hd2⟩

/-- The update loop raises if and only if some operation, run after a
successful prefix of the operation list, walks into a non-mapping — a
condition on the document and the path alone, never on the value text or the
entry's shape. -/
theorem applyOps_none_iff (ops : List (List String × String)) (d : YValue) :
    applyOps d ops = none
      ↔ ∃ ops1 p v ops2 d1, ops = ops1 ++ (p, v) :: ops2
          ∧ applyOps d ops1 = some d1 ∧ pathBlocked d1 p = true := by
  induction ops generalizing d with
  | nil =>
      simp only [applyOps_nil]
      constructor
      · intro h; exact absurd h (by simp)
      · rintro ⟨ops1, p, v, ops2, d1, habs, -, -⟩
        exact absurd habs (by simp)
  | cons op rest ih =>
      rw [applyOps_cons]
      cases hset : set_nested_value d op.1 op.2 with
      | none =>
          simp only [true_iff]
          exact ⟨[], op.1, op.2, rest, d,
            by simp, applyOps_nil d, (set_nested_none_iff op.1 d op.2).mp hset⟩
      | some e =>
          rw [ih e]
          constructor
          · rintro ⟨ops1, p, v, ops2, d1, hsplit, hpre, hblock⟩
            refine ⟨op :: ops1, p, v, ops2, d1, by rw [hsplit]; simp, ?_, hblock⟩
            rw [applyOps_cons, hset]
            exact hpre
          · rintro ⟨ops1, p, v, ops2, d1, hsplit, hpre, hblock⟩
            cases ops1 with
            | nil =>
                simp only [List.nil_append, List.cons.injEq] at hsplit
                obtain ⟨hop, -⟩ := hsplit
                rw [applyOps_nil] at hpre
                rw [← Option.some.inj hpre] at hblock
                have : set_nested_value d op.1 op.2 = none := by
                  rw [set_nested_none_iff, hop]
                  exact hblock
                rw [hset] at this
                exact absurd this (by simp)
            | cons op1 ops1t =>
                simp only [List.cons_append, List.cons.injEq] at hsplit
                obtain ⟨hop, hrest⟩ := hsplit
                subst hop
                rw [applyOps_cons, hset] at hpre
                exact ⟨ops1t, p, v, ops2, d1, hrest, hpre, hblock⟩

theorem splitOnChar_ne_nil (sep : Char) (l : List Char) : splitOnChar sep l ≠ [] := by
  cases l with
  | nil => simp [splitOnChar]
  | cons x rest =>
      simp only [splitOnChar]
      by_cases hx : x = sep
      · simp [hx]
      · simp only [hx, if_false]
        cases splitOnChar sep rest <;> simp

theorem splitPath_ne_nil (p : String) : splitPath p ≠ [] := by
  simp only [splitPath]
  intro h
  exact splitOnChar_ne_nil '.' p.toList (by simpa using h)

theorem updateOps_paths_ne_nil (u : Update) :
    ∀ p ∈ opsPaths (updateOps u), p ≠ [] := by
  intro p hp
  cases u with
  | dict entries =>
      simp only [updateOps, opsPaths, List.map_map, List.mem_map] at hp
      obtain ⟨kv, -, hfst⟩ := hp
      rw [← hfst]
      exact splitPath_ne_nil kv.1
  | str s =>
      simp only [updateOps] at hp
      cases hsplit : splitColonOnce s.toList with
      | none => rw [hsplit] at hp; simp [opsPaths] at hp
      | some ab =>
          rw [hsplit] at hp
          simp only [opsPaths, List.map_cons, List.map_nil, List.mem_singleton] at hp
          rw [hp]
          exact splitPath_ne_nil _
  | other => simp [updateOps, opsPaths] at hp

theorem flatMap_updateOps_paths_ne_nil (us : List Update) :
    ∀ p ∈ opsPaths (us.flatMap updateOps), p ≠ [] := by
  intro p hp
  simp only [opsPaths, List.mem_map, List.mem_flatMap] at hp
  obtain ⟨op, ⟨u, humem, hop⟩, hfst⟩ := hp
  rw [← hfst]
  exact updateOps_paths_ne_nil u op.1 (List.mem_map.mpr ⟨op, hop, rfl⟩)

/-! ## Helper lemmas for the orchestrator-level claims -/

theorem apply_updates_cons (d : YValue) (u : Update) (us : List Update) :
    apply_updates d (u :: us)
      = match applyStep d u with
        | none => none
        | some e => apply_updates e us := by
  simp only [apply_updates, List.foldlM_cons]
  cases applyStep d u <;> rfl

theorem splitColonOnce_append (l1 l2 : List Char) (h : splitColonOnce l1 = none) :
    splitColonOnce (l1 ++ ':' :: l2) = some (l1, l2) := by
  induction l1 with
  | nil => simp [splitColonOnce]
  | cons c rest ih =>
      simp only [splitColonOnce] at h
      by_cases hc : c = ':'
      · simp [hc] at h
      · simp only [hc, if_false] at h
        cases hrec : splitColonOnce rest with
        | some ab => rw [hrec] at h; simp at h
        | none =>
            simp only [List.cons_append, splitColonOnce, hc, if_false, List.append_eq,
              ih hrec]

theorem mk_toList (s : String) : String.mk s.toList = s := rfl

theorem pyStrip_cons_space (v : String) :
    pyStrip (String.mk (' ' :: v.toList)) = pyStrip v := by
  have hsp : pyIsSpaceChar ' ' = true := rfl
  simp [pyStrip, List.dropWhile_cons, hsp]

theorem mem_sortInsert (a x : String) (l : List String) :
    a ∈ sortInsert x l ↔ a = x ∨ a ∈ l := by
  induction l with
  | nil => simp [sortInsert]
  | cons y rest ih =>
      rw [sortInsert]
      by_cases hle : listLe x.toList y.toList
      · rw [if_pos hle]; simp
      · rw [if_neg hle]
        simp only [List.mem_cons, ih]
        tauto

theorem mem_pySorted (a : String) (l : List String) : a ∈ pySorted l ↔ a ∈ l := by
  induction l with
  | nil => simp [pySorted]
  | cons x rest ih => simp [pySorted, mem_sortInsert, ih]

theorem mem_dedupFirst (a : String) (seen l : List String) :
    a ∈ dedupFirst seen l ↔ a ∈ l ∧ ¬ a ∈ seen := by
  induction l generalizing seen with
  | nil => simp [dedupFirst]
  | cons x rest ih =>
      by_cases hx : seen.contains x = true
      · rw [dedupFirst, if_pos hx, ih seen]
        have hxm : x ∈ seen := by simpa using hx
        simp only [List.mem_cons]
        constructor
        · tauto
        · rintro ⟨hx2 | hmem, hns⟩
          · exact absurd (hx2 ▸ hxm) hns
          · exact ⟨hmem, hns⟩
      · rw [dedupFirst, if_neg hx, List.mem_cons, ih (x :: seen)]
        have hxm : ¬ x ∈ seen := by simpa using hx
        simp only [List.mem_cons]
        by_cases hax : a = x
        · subst hax; simp [hxm]
        · simp [hax]

/-! ## Claim theorems -/

/-- C1 (amended): scalar style inference in the patch engine.  For any value
text that is non-empty, quote-free, not pure whitespace and not starting with
the expression marker, a successful `set_nested_value` stores it as a plain
unquoted scalar string (`PlainScalarString`); any other value text is parsed
as an independent structured value, falling back to the raw string on parse
failure.  Concretely, `ubuntu-22.04` is stored as an unquoted plain token and
the expression text is stored unmodified; the boolean-looking value text
`true` also satisfies the guard and is therefore stored as a plain scalar
string (serializing as the bare token `true`), not as a structured boolean. -/
theorem claim_C1_scalar_style_inference :
    (∀ (d d2 : YValue) (ks : List String) (v : String),
        plain_scalar_eligible v = true →
        set_nested_value d ks v = some d2 →
        getAt d2 ks = some (.plainStr v))
    ∧ (∀ v : String, plain_scalar_eligible v = false →
        inferValue v = (match yamlLoadValue v with
          | some x => x
          | none => .str v))
    ∧ inferValue "ubuntu-22.04" = .plainStr "ubuntu-22.04"
    ∧ inferValue "$\x7b\x7b matrix.os \x7d\x7d" = .str "$\x7b\x7b matrix.os \x7d\x7d"
    ∧ inferValue "true" = .plainStr "true" := by
  refine ⟨?_, ?_, rfl, rfl, rfl⟩
  · intro d d2 ks v hv hset
    have hh : inferValue v = .plainStr v := by simp [inferValue, hv]
    rw [← hh]
    exact getAt_set_nested ks d d2 v hset
  · intro v hv
    simp [inferValue, hv]

/-- Witness for C1: the plain-scalar branch at the concrete override
`runs-on: ubuntu-22.04` applied to the empty document. -/
theorem claim_C1_scalar_style_inference_witness :
    getAt (.map [("runs-on", .plainStr "ubuntu-22.04")]) ["runs-on"]
      = some (.plainStr "ubuntu-22.04") :=
  claim_C1_scalar_style_inference.1 (.map []) (.map [("runs-on", .plainStr "ubuntu-22.04")])
    ["runs-on"] "ubuntu-22.04" rfl rfl

/-- C1 counterexample: the claim as stated says the value text `true` is
stored as a structured boolean true value.  In the code the guard of
`set_nested_value` accepts `true` (non-empty, quote-free, not whitespace, no
expression marker), so it is stored as a `PlainScalarString` — a string, not
a boolean. -/
theorem claim_C1_counterexample :
    set_nested_value (.map []) ["a"] "true" = some (.map [("a", .plainStr "true")])
      ∧ YValue.plainStr "true" ≠ YValue.bool true :=
  ⟨rfl, fun h => YValue.noConfusion h⟩

/-- C2 (amended): the update loop of `apply_modifications` raises an
unhandled error exactly when some override operation, applied after a
successful prefix of the flattened operation list, walks a dotted path into
an existing non-mapping value (`pathBlocked`, a condition on the document and
path only — never on the value text, and never triggered by shape-malformed
entries, which contribute no operations). -/
theorem claim_C2_crash_characterization :
    ∀ (d : YValue) (us : List Update),
      apply_updates d us = none
        ↔ ∃ ops1 p v ops2 d1,
            us.flatMap updateOps = ops1 ++ (p, v) :: ops2
              ∧ applyOps d ops1 = some d1
              ∧ pathBlocked d1 p = true := by
  intro d us
  rw [apply_updates_eq_applyOps]
  exact applyOps_none_iff (us.flatMap updateOps) d

/-- C2 counterexample: the claim as stated says an override whose dotted path
has an intermediate segment resolving to an existing non-mapping value is a
per-item recoverable condition.  In the code it raises an uncaught
`TypeError`: after `a: y` sets a scalar, `a.b: x` crashes the whole
modification pass, and the crash propagates out of
`process_modify_workflows`. -/
theorem claim_C2_counterexample :
    apply_modifications (yamlLoadDoc "\x7b\x7d") [.str "a: y", .str "a.b: x"] = .crash
      ∧ process_modify_workflows [("ci.yaml", [.str "a: y", .str "a.b: x"])]
          (fun _ => .response 200 "\x7b\x7d") = none :=
  ⟨rfl, rfl⟩

/-- C3 (amended): the mapping form `{p: v}` and the string form `"p: v"` of
an override are interchangeable provided the path contains no colon and both
path and value carry no surrounding whitespace.  (The string form splits on
the first colon and strips both sides; the mapping form uses path and value
verbatim, which is what forces the proviso.) -/
theorem claim_C3_override_forms_equivalent (d : YValue) (p v : String)
    (hcolon : splitColonOnce p.toList = none)
    (hp : pyStrip p = p) (hv : pyStrip v = v) :
    applyStep d (.dict [(p, v)]) = applyStep d (.str (p ++ ": " ++ v)) := by
  have htl : (p ++ ": " ++ v).toList = p.toList ++ ':' :: ' ' :: v.toList := by
    show (p ++ ": " ++ v).data = p.data ++ ':' :: ' ' :: v.data
    rw [String.data_append, String.data_append, List.append_assoc]
    rfl
  have hl : applyStep d (.dict [(p, v)]) = set_nested_value d (splitPath p) v := by
    simp only [applyStep, List.foldlM_cons, List.foldlM_nil]
    cases set_nested_value d (splitPath p) v <;> rfl
  have hr : applyStep d (.str (p ++ ": " ++ v)) = set_nested_value d (splitPath p) v := by
    simp only [applyStep, htl, splitColonOnce_append p.toList (' ' :: v.toList) hcolon]
    rw [mk_toList, hp, pyStrip_cons_space, hv]
  rw [hl, hr]

/-- Witness for C3: the two forms agree at the concrete override
`a.b: x` on the empty document. -/
theorem claim_C3_override_forms_equivalent_witness :
    applyStep (.map []) (.dict [("a.b", "x")]) = applyStep (.map []) (.str "a.b: x") :=
  claim_C3_override_forms_equivalent (.map []) "a.b" "x" rfl rfl rfl

/-- C3 counterexample: the claim as stated quantifies over every path and
value text.  For the value text ` x` (leading space) the mapping form stores
the value verbatim while the string form strips it, so the resulting
documents differ. -/
theorem claim_C3_counterexample :
    applyStep (.map []) (.dict [("a", " x")]) = some (.map [("a", .plainStr " x")])
      ∧ applyStep (.map []) (.str "a:  x") = some (.map [("a", .plainStr "x")])
      ∧ YValue.plainStr " x" ≠ YValue.plainStr "x" := by
  refine ⟨rfl, rfl, fun h => ?_⟩
  injection h with h2
  exact absurd h2 (by decide)

/-- C4 (amended): the keep pass writes a fetched file verbatim whenever the
fetch succeeds with *non-empty* text; a success with empty text is falsy
(`if content:`) and is *not* written, and NotFound (404), any non-200 status
and a network exception produce no write. -/
theorem claim_C4_keep_pass (name t : String) (o : HttpOutcome) :
    (t ≠ "" → process_keep_one name (.response 200 t) = [(name, t)])
    ∧ process_keep_one name (.response 200 "") = []
    ∧ (download_workflow o = none → process_keep_one name o = [])
    ∧ (∀ t2, download_workflow (.response 404 t2) = none)
    ∧ download_workflow .exception = none := by
  refine ⟨?_, rfl, ?_, fun t2 => rfl, rfl⟩
  · intro ht
    have hne : ¬ t.data = [] := by
      intro hd
      apply ht
      cases t with
      | mk data => simp only at hd; rw [hd]
    simp [process_keep_one, download_workflow, hne]
  · intro h
    simp [process_keep_one, h]

/-- Witness for C4: a successful non-empty fetch is written verbatim. -/
theorem claim_C4_keep_pass_witness :
    process_keep_one "build.yaml" (.response 200 "name: build\n")
      = [("build.yaml", "name: build\n")] :=
  (claim_C4_keep_pass "build.yaml" "name: build\n" .exception).1 (by decide)

/-- C4 counterexample: the claim as stated includes the empty fetched text
among the verbatim writes; the code's truthiness test skips it. -/
theorem claim_C4_counterexample :
    download_workflow (.response 200 "") = some ""
      ∧ process_keep_workflows [("w.yaml", .response 200 "")] = []
      ∧ ([] : List (String × String)) ≠ [("w.yaml", "")] :=
  ⟨rfl, rfl, by decide⟩

theorem mem_localNames (w : String) (listing : List String) :
    w ∈ localNames listing
      ↔ w ∈ listing
          ∧ (listEndsWith w.toList ".yaml".toList || listEndsWith w.toList ".yml".toList) := by
  simp only [localNames, mem_dedupFirst, List.mem_append, List.mem_filter]
  constructor
  · rintro ⟨⟨hmem, hext⟩ | ⟨hmem, hext⟩, -⟩
    · refine ⟨hmem, ?_⟩
      simp only [Bool.or_eq_true]
      exact Or.inl hext
    · refine ⟨hmem, ?_⟩
      simp only [Bool.or_eq_true]
      exact Or.inr hext
  · rintro ⟨hmem, hext⟩
    rcases Bool.or_eq_true _ _ |>.mp hext with h1 | h1
    · exact ⟨Or.inl ⟨hmem, h1⟩, by simp⟩
    · exact ⟨Or.inr ⟨hmem, h1⟩, by simp⟩

theorem mem_check_extra_warning (listing keep modifyKeys unique : List String) (w : String) :
    (Severity.warning, w) ∈ check_extra_workflows listing keep modifyKeys unique
      ↔ w ∈ localNames listing ∧ ¬ w ∈ keep ∧ ¬ w ∈ modifyKeys ∧ ¬ w ∈ unique := by
  unfold check_extra_workflows
  set extras := (localNames listing).filter
      (fun w2 => !(keep.contains w2 || modifyKeys.contains w2 || unique.contains w2)) with hex
  have hmem : ∀ a, a ∈ extras
      ↔ a ∈ localNames listing ∧ ¬ a ∈ keep ∧ ¬ a ∈ modifyKeys ∧ ¬ a ∈ unique := by
    intro a
    rw [hex, List.mem_filter]
    simp [not_or, and_assoc]
  by_cases hem : extras.isEmpty
  · rw [if_pos hem]
    have hnil : extras = [] := by simpa using hem
    simp only [List.mem_singleton]
    constructor
    · intro hcontra
      simp at hcontra
    · intro hcond
      have : w ∈ extras := (hmem w).mpr hcond
      rw [hnil] at this
      simp at this
  · rw [if_neg hem]
    rw [List.mem_map]
    constructor
    · rintro ⟨w2, hw2, heq⟩
      have hw : w2 = w := by
        have := congrArg Prod.snd heq
        simpa using this
      subst hw
      exact (hmem w2).mp ((mem_pySorted w2 extras).mp hw2)
    · intro hcond
      exact ⟨w, (mem_pySorted w extras).mpr ((hmem w).mpr hcond), rfl⟩

theorem check_extra_not_error (listing keep modifyKeys unique : List String)
    (sev : Severity) (w : String)
    (h : (sev, w) ∈ check_extra_workflows listing keep modifyKeys unique) :
    ¬ sev = .error := by
  unfold check_extra_workflows at h
  set extras := (localNames listing).filter
      (fun w2 => !(keep.contains w2 || modifyKeys.contains w2 || unique.contains w2)) with hex
  by_cases hem : extras.isEmpty
  · rw [if_pos hem] at h
    simp only [List.mem_singleton] at h
    have : sev = .info := by
      have := congrArg Prod.fst h
      simpa using this
    rw [this]
    intro hcontra
    cases hcontra
  · rw [if_neg hem] at h
    rw [List.mem_map] at h
    obtain ⟨w2, -, heq⟩ := h
    have : sev = .warning := by
      have := congrArg Prod.fst heq
      simpa using this.symm
    rw [this]
    intro hcontra
    cases hcontra

/-- C5: the drift check reports, at `warning` severity (never `error`),
exactly the local files carrying one of the two workflow extensions that lie
in none of the keep list, the modify mapping's keys, and the unique-local
list; on `{a.yaml, b.yaml}` with only `keep: [a.yaml]` it reports exactly
`{b.yaml}`. -/
theorem claim_C5_drift_check :
    (∀ (listing keep modifyKeys unique : List String) (w : String),
        ((Severity.warning, w) ∈ check_extra_workflows listing keep modifyKeys unique
          ↔ (w ∈ listing
              ∧ (listEndsWith w.toList ".yaml".toList || listEndsWith w.toList ".yml".toList))
            ∧ ¬ w ∈ keep ∧ ¬ w ∈ modifyKeys ∧ ¬ w ∈ unique))
    ∧ (∀ (listing keep modifyKeys unique : List String) (sev : Severity) (w : String),
        (sev, w) ∈ check_extra_workflows listing keep modifyKeys unique → ¬ sev = .error)
    ∧ check_extra_workflows ["a.yaml", "b.yaml"] ["a.yaml"] [] []
        = [(.warning, "b.yaml")] := by
  refine ⟨?_, check_extra_not_error, rfl⟩
  intro listing keep modifyKeys unique w
  rw [mem_check_extra_warning, mem_localNames]

/-- Witness for C5: on the concrete listing, `b.yaml` is reported. -/
theorem claim_C5_drift_check_witness :
    (Severity.warning, "b.yaml") ∈ check_extra_workflows ["a.yaml", "b.yaml"] ["a.yaml"] [] [] :=
  (claim_C5_drift_check.1 ["a.yaml", "b.yaml"] ["a.yaml"] [] [] "b.yaml").mpr
    (by refine ⟨⟨?_, ?_⟩, ?_, ?_, ?_⟩ <;> decide)

/-- C6: runs that differ only in the `ignore` category perform the same file
writes and produce the same drift report — `main` reads `ignore` only for a
logged count; in particular a local file listed only in `ignore` is still
reported by the drift check. -/
theorem claim_C6_ignore_noninterference :
    (∀ (s1 s2 : SyncSettings) (fetch : String → HttpOutcome) (listing : List String),
        s1.keep = s2.keep → s1.modify = s2.modify →
        s1.unique_tier4_workflows = s2.unique_tier4_workflows →
        main_run s1 fetch listing = main_run s2 fetch listing)
    ∧ main_run ⟨["a.yaml"], ["b.yaml"], [], []⟩ (fun _ => .exception) ["a.yaml", "b.yaml"]
        = some ([], [(.warning, "b.yaml")]) := by
  constructor
  · intro s1 s2 fetch listing h1 h2 h3
    simp only [main_run, h1, h2, h3]
  · rfl

/-- Witness for C6: concrete settings differing only in `ignore` give equal
runs. -/
theorem claim_C6_ignore_noninterference_witness :
    main_run ⟨["a.yaml"], ["ignored.yaml"], [], []⟩ (fun _ => .exception) ["a.yaml"]
      = main_run ⟨["a.yaml"], [], [], []⟩ (fun _ => .exception) ["a.yaml"] :=
  claim_C6_ignore_noninterference.1
    ⟨["a.yaml"], ["ignored.yaml"], [], []⟩ ⟨["a.yaml"], [], [], []⟩
    (fun _ => .exception) ["a.yaml"] rfl rfl rfl

/-- C7: an empty or unparsable original text (the loader yields `None` or
raises) makes `apply_modifications` return the `ParseError` outcome for every
override list, and the modify pass then writes nothing for that item.  The
empty document is such a text. -/
theorem claim_C7_parse_error_no_write :
    (∀ us : List Update, apply_modifications none us = .parseError)
    ∧ (∀ (name : String) (us : List Update) (t : String),
        yamlLoadDoc t = none →
        process_modify_one name us (.response 200 t) = some [])
    ∧ yamlLoadDoc "" = none := by
  refine ⟨fun us => rfl, ?_, rfl⟩
  intro name us t h
  have hd : download_workflow (.response 200 t) = some t := rfl
  simp only [process_modify_one, hd]
  by_cases ht : t.toList.isEmpty = true
  · rw [if_pos ht]
  · rw [if_neg ht, h]
    rfl

/-- Witness for C7: the empty fetched document produces no write. -/
theorem claim_C7_parse_error_no_write_witness :
    process_modify_one "deploy.yaml" [] (.response 200 "") = some [] :=
  claim_C7_parse_error_no_write.2.1 "deploy.yaml" [] "" rfl

/-- C8: an override entry that is a string without a colon, or that is
neither a mapping nor a string, is skipped with a warning: it maps the
document to itself, raises nothing, and removing it from the list does not
change the result of applying the remaining overrides. -/
theorem claim_C8_malformed_override_skipped :
    ∀ (d : YValue) (us1 us2 : List Update) (u : Update),
      ((∃ s, u = .str s ∧ splitColonOnce s.toList = none) ∨ u = .other) →
      applyStep d u = some d
        ∧ updateWarns u = true
        ∧ apply_updates d (us1 ++ u :: us2) = apply_updates d (us1 ++ us2) := by
  intro d us1 us2 u hu
  have hstep : ∀ e : YValue, applyStep e u = some e := by
    intro e
    rcases hu with ⟨s, rfl, hs⟩ | rfl
    · have hs2 : splitColonOnce s.data = none := hs
      simp [applyStep, hs2]
    · rfl
  have hwarn : updateWarns u = true := by
    rcases hu with ⟨s, rfl, hs⟩ | rfl
    · have hs2 : splitColonOnce s.data = none := hs
      simp [updateWarns, hs2]
    · rfl
  refine ⟨hstep d, hwarn, ?_⟩
  induction us1 generalizing d with
  | nil =>
      rw [List.nil_append, List.nil_append, apply_updates_cons, hstep d]
  | cons w rest ih =>
      rw [List.cons_append, List.cons_append, apply_updates_cons, apply_updates_cons]
      cases applyStep d w with
      | none => rfl
      | some e => exact ih e

/-- Witness for C8: a colon-free override string is skipped and warns. -/
theorem claim_C8_malformed_override_skipped_witness :
    applyStep (.map []) (.str "no-colon-here") = some (.map [])
      ∧ updateWarns (.str "no-colon-here") = true
      ∧ apply_updates (.map []) ([] ++ Update.str "no-colon-here" :: [])
          = apply_updates (.map []) ([] ++ []) :=
  claim_C8_malformed_override_skipped (.map []) [] [] (.str "no-colon-here")
    (Or.inl ⟨"no-colon-here", rfl, rfl⟩)

/-- C9 (amended): applying the same override list twice to the same parsed
original trivially yields the same document (the engine is a pure function);
and provided no override path strictly extends another override path,
re-applying the list to the already-patched document succeeds and leaves the
value at every targeted path unchanged.  (Without the proviso the second
application can abort, see the counterexample.) -/
theorem claim_C9_patch_idempotent :
    (∀ (parsed : Option YValue) (us : List Update),
        apply_modifications parsed us = apply_modifications parsed us)
    ∧ ∀ (d d1 : YValue) (us : List Update),
        NoStrictExt (opsPaths (us.flatMap updateOps)) →
        apply_updates d us = some d1 →
        ∃ d2, apply_updates d1 us = some d2
          ∧ ∀ p ∈ opsPaths (us.flatMap updateOps), getAt d2 p = getAt d1 p := by
  refine ⟨fun parsed us => rfl, ?_⟩
  intro d d1 us hnoext h
  rw [apply_updates_eq_applyOps] at h ⊢
  have hinv := applyOps_prefixMaps (us.flatMap updateOps) d d1 hnoext h
  obtain ⟨d2, hd2⟩ := applyOps_succeeds (us.flatMap updateOps) d1
    (flatMap_updateOps_paths_ne_nil us) hnoext hinv
  refine ⟨d2, hd2, ?_⟩
  intro p hp
  obtain ⟨v, hv⟩ := lastVal_isSome_of_mem (us.flatMap updateOps) p hp
  rw [applyOps_lastVal (us.flatMap updateOps) d1 d2 p v hnoext hd2 hv,
    applyOps_lastVal (us.flatMap updateOps) d d1 p v hnoext h hv]

/-- Witness for C9: re-applying the single override `jobs.runs-on:
ubuntu-22.04` to its own output succeeds and changes no targeted path. -/
theorem claim_C9_patch_idempotent_witness :
    ∃ d2, apply_updates (.map [("jobs", .map [("runs-on", .plainStr "ubuntu-22.04")])])
          [.str "jobs.runs-on: ubuntu-22.04"] = some d2
      ∧ ∀ p ∈ opsPaths ([Update.str "jobs.runs-on: ubuntu-22.04"].flatMap updateOps),
          getAt d2 p
            = getAt (.map [("jobs", .map [("runs-on", .plainStr "ubuntu-22.04")])]) p :=
  claim_C9_patch_idempotent.2 (.map [])
    (.map [("jobs", .map [("runs-on", .plainStr "ubuntu-22.04")])])
    [.str "jobs.runs-on: ubuntu-22.04"]
    (by
      intro p hp q hq hpq
      have he : opsPaths ([Update.str "jobs.runs-on: ubuntu-22.04"].flatMap updateOps)
          = [["jobs", "runs-on"]] := rfl
      rw [he] at hp hq
      simp only [List.mem_singleton] at hp hq
      rw [hp, hq])
    rfl

/-- C9 counterexample: the claim as stated asserts the second application
changes none of the targeted paths for *every* override list.  For
`[a.b: x, a: y]` the first application succeeds (last write wins at `a`), but
re-applying to the patched output crashes: `a.b` now descends into the scalar
at `a`. -/
theorem claim_C9_counterexample :
    apply_updates (.map []) [.str "a.b: x", .str "a: y"]
        = some (.map [("a", .plainStr "y")])
      ∧ apply_updates (.map [("a", .plainStr "y")]) [.str "a.b: x", .str "a: y"] = none :=
  ⟨rfl, rfl⟩

/-- C10: path creation.  Setting a dotted path whose head key is absent from
the document appends, in order, a chain of freshly created singleton nested
mappings ending in the inferred value — and concretely, applying
`{"a.b.c": "x"}` to the parsed document `{}` yields exactly
`a → b → c → x` with no extra keys. -/
theorem claim_C10_path_creation :
    (∀ (m : List (String × YValue)) (k : String) (rest : List String) (value : String),
        lookupVal m k = none →
        set_nested_value (.map m) (k :: rest) value
          = some (.map (m ++ [(k, chainVal rest value)])))
    ∧ apply_modifications (yamlLoadDoc "\x7b\x7d") [.dict [("a.b.c", "x")]]
        = .ok (.map [("a", .map [("b", .map [("c", .plainStr "x")])])]) :=
  ⟨set_nested_absent, rfl⟩

/-- Witness for C10: creating `a.b.c` in the empty mapping. -/
theorem claim_C10_path_creation_witness :
    set_nested_value (.map []) ["a", "b", "c"] "x"
      = some (.map ([] ++ [("a", chainVal ["b", "c"] "x")])) :=
  claim_C10_path_creation.1 [] "a" ["b", "c"] "x" rfl
